import Mathlib

/-!
Verification of the YUScheduler schedule-generation core and its
presentation-layer helpers.

The repository ships the React frontend (ScheduleResults.js, App.js,
CourseSelector.js) and the API documentation; the backend engine itself
(request resolution, conflict checking, combination enumeration) is not part
of the source tree, so it is modelled here from the specification, while all
frontend operations are translated directly from the JavaScript source.

Times of day are represented as minutes since midnight (Nat).  The source
represents them as fixed-width zero-padded "HH:MM" strings, whose
lexicographic order coincides with the numeric order of the minute values,
as the specification requires.
-/

namespace YUScheduler

/-! ### JavaScript string primitives

`jsToLower` and `jsTrim` model `String.prototype.toLowerCase` and
`String.prototype.trim` character-by-character; `strLtB`/`strLeB` model the
relational operators `<` and `<=` on strings (code-unit lexicographic
comparison). -/

def jsToLower (s : String) : String := ⟨s.data.map Char.toLower⟩

def jsTrim (s : String) : String :=
  ⟨((s.data.dropWhile Char.isWhitespace).reverse.dropWhile Char.isWhitespace).reverse⟩

def charListLt : List Char → List Char → Bool
  | [], [] => false
  | [], _ :: _ => true
  | _ :: _, [] => false
  | a :: as, b :: bs =>
    if a.val < b.val then true
    else if b.val < a.val then false
    else charListLt as bs

def strLtB (a b : String) : Bool := charListLt a.data b.data

def strLeB (a b : String) : Bool := !(strLtB b a)

/-! ### Warning deduplication (ScheduleResults.js)

`uniqueWarnings` embeds the normalized deduplication filter of
ScheduleResults.js lines 313-322: it normalizes each warning by trimming and
lowercasing, drops the terminal no-valid-courses message, skips entries whose
normalization was already seen, and otherwise keeps the entry with its
original text.  `uniqueWarningsSetBased` embeds the second exported version
(lines 642-644), `[...new Set(warnings)]`: first occurrences under exact
string equality, in input order. -/

def normalizeWarning (w : String) : String := jsToLower (jsTrim w)

def noValidCoursesMsg : String := "no valid courses remain to generate a schedule."

def uniqueWarningsAux (seen : List String) : List String → List String
  | [] => []
  | w :: ws =>
    if normalizeWarning w = noValidCoursesMsg then uniqueWarningsAux seen ws
    else if normalizeWarning w ∈ seen then uniqueWarningsAux seen ws
    else w :: uniqueWarningsAux (normalizeWarning w :: seen) ws

def uniqueWarnings (ws : List String) : List String := uniqueWarningsAux [] ws

def dedupExactAux (seen : List String) : List String → List String
  | [] => []
  | w :: ws =>
    if w ∈ seen then dedupExactAux seen ws
    else w :: dedupExactAux (w :: seen) ws

def uniqueWarningsSetBased (ws : List String) : List String := dedupExactAux [] ws

/-! ### Timetable grid cell test (ScheduleResults.js lines 73-87)

The grid places a session into the cell of a slot when the inclusive
three-way comparison below succeeds; times are compared with the JavaScript
string relational operators.  `strictOverlapTest` is the half-open
interval-overlap predicate of specification section 4.2. -/

def cellOverlapTest (sessStart sessEnd slotStart slotEnd : String) : Bool :=
  (strLeB sessStart slotEnd && !(strLtB sessStart slotStart)) ||
  (!(strLtB sessEnd slotStart) && strLeB sessEnd slotEnd) ||
  (strLeB sessStart slotStart && !(strLtB sessEnd slotEnd))

def strictOverlapTest (start1 end1 start2 end2 : String) : Bool :=
  strLtB start1 end2 && strLtB start2 end1

/-! ### Blocked-hour cell toggling (ScheduleResults.js lines 96-117) -/

structure BlockedCell where
  day : String
  slot : String
deriving DecidableEq

def makeKey (day slot : String) : String := day ++ "|" ++ slot

def isBlocked (blockedHours : List BlockedCell) (day slot : String) : Bool :=
  blockedHours.any fun b => makeKey b.day b.slot == makeKey day slot

def handleCellClick (blockedHours : List BlockedCell) (day slot : String) :
    List BlockedCell :=
  if isBlocked blockedHours day slot then
    blockedHours.filter fun b => !(makeKey b.day b.slot == makeKey day slot)
  else
    blockedHours ++ [⟨day, slot⟩]

/-- A string free of the `'|'` separator used by `makeKey`; every canonical
weekday name and `"HH:MM-HH:MM"` slot label satisfies this. -/
def NoSep (s : String) : Prop := '|' ∉ s.data

instance (s : String) : Decidable (NoSep s) := by unfold NoSep; infer_instance

/-! ### Timetable slot fallback (App.js) -/

def DEFAULT_SLOTS : List String :=
  ["08:40-09:30", "09:40-10:30", "10:40-11:30", "11:40-12:30",
   "12:40-13:30", "13:40-14:30", "14:40-15:30", "15:40-16:30",
   "16:40-17:30", "17:40-18:30", "18:40-19:30", "19:40-20:30",
   "20:40-21:30", "21:40-22:30"]

/-- The time-slot state set by `handleSchedule` (App.js line 217): the
result's `time_slots` when non-empty, otherwise the default fixed grid. -/
def handleScheduleTimeSlots (resultSlots : List String) : List String :=
  if resultSlots.length > 0 then resultSlots else DEFAULT_SLOTS

/-! ### The schedule-generation engine

Modelled from the spec: the backend service implementing request resolution
(section 4.1), conflict checking (section 4.2), combination enumeration
(section 4.3) and metadata assembly (section 4.4) is not part of the source
tree; the definitions below follow the specification's words. -/

/-- Modelled from the spec: a weekly class meeting, section 3 of the spec
(day, start and end time of day in minutes, location). -/
structure Meeting where
  day : String
  start : Nat
  stop : Nat
  classroom : String
deriving DecidableEq

/-- Modelled from the spec, section 4.2: two Meetings conflict iff they fall
on the same day and their half-open intervals overlap. -/
def overlaps (m1 m2 : Meeting) : Bool :=
  m1.day == m2.day && decide (m1.start < m2.stop) && decide (m2.start < m1.stop)

/-- The no-overlap relation of the spec's testable property, section 8: two
meetings sharing a day satisfy `not (start1 < end2 and start2 < end1)`. -/
def NoClash (m1 m2 : Meeting) : Prop :=
  m1.day = m2.day → ¬(m1.start < m2.stop ∧ m2.start < m1.stop)

instance (m1 m2 : Meeting) : Decidable (NoClash m1 m2) := by
  unfold NoClash; infer_instance

/-- Modelled from the spec: one offered section of a course with its meeting
times (spec section 3). -/
structure Section where
  course : String
  sectionId : String
  meetings : List Meeting
deriving DecidableEq

def meetingsOf (secs : List Section) : List Meeting :=
  secs.flatMap (·.meetings)

/-- A section conflicts with a meeting set iff any of its meetings overlaps
any meeting in the set (spec section 4.2). -/
def sectionConflicts (s : Section) (ms : List Meeting) : Bool :=
  s.meetings.any fun m => ms.any fun m' => overlaps m m'

/-- Two sections conflict iff any meeting of one overlaps any meeting of the
other (spec section 4.2). -/
def sectionsConflict (s t : Section) : Bool := sectionConflicts s t.meetings

/-- Modelled from the spec, section 4.3: incremental backtracking
enumeration.  Courses are processed in input order; a candidate section is
tested only against the accumulated meetings and the blocked set, and the
branch is abandoned on the first conflict. -/
def backtrack (blocked : List Meeting) : List (List Section) → List Meeting →
    List (List Section)
  | [], _ => [[]]
  | cands :: rest, acc =>
    cands.flatMap fun s =>
      if sectionConflicts s (acc ++ blocked) then []
      else (backtrack blocked rest (acc ++ s.meetings)).map (s :: ·)

def generateSchedules (blocked : List Meeting) (cands : List (List Section)) :
    List (List Section) :=
  backtrack blocked cands []

/-- Modelled from the spec (and API.md): full Cartesian-product enumeration
of one candidate section per course. -/
def productCombos : List (List Section) → List (List Section)
  | [] => [[]]
  | cands :: rest => cands.flatMap fun s => (productCombos rest).map (s :: ·)

/-- Modelled from the spec, section 4.3: a combination is valid iff its
pairwise section-to-section conflicts and its section-to-blocked conflicts
are all absent. -/
def comboValid (blocked : List Meeting) : List Section → Bool
  | [] => true
  | s :: rest =>
    !(rest.any fun t => sectionsConflict s t) &&
    !(sectionConflicts s blocked) &&
    comboValid blocked rest

/-- Validity of a suffix of the combination given the meetings accumulated
from the sections already placed; the invariant maintained by `backtrack`. -/
def okFrom (blocked : List Meeting) (acc : List Meeting) : List Section → Bool
  | [] => true
  | s :: rest =>
    !(sectionConflicts s (acc ++ blocked)) &&
    okFrom blocked (acc ++ s.meetings) rest

/-! ### Request resolution (modelled from the spec, section 4.1) -/

/-- Modelled from the spec: a requested course with an optional pinned
section id. -/
structure RequestedCourse where
  course : String
  sectionId : Option String
deriving DecidableEq

/-- Modelled from the spec: the term catalog, a mapping from course id to
its sections. -/
abbrev Catalog : Type := List (String × List Section)

def lookupCourse (catalog : Catalog) (c : String) : Option (List Section) :=
  (List.find? (fun e => e.1 == c) catalog).map (·.2)

def noDataWarning (c : String) : String :=
  "No section data available for " ++ c ++ " this term."

def pinNotFoundWarning (c sid : String) : String :=
  "Requested section " ++ sid ++ " not found for " ++ c ++ "."

/-- Modelled from the spec: the terminal summary message attached only when
every requested course is excluded.  Its trimmed lowercased text is the
string the display filter matches. -/
def terminalWarning : String := "No valid courses remain to generate a schedule."

/-- Modelled from the spec, section 4.1: resolve one requested course to its
candidate list, or exclude it with a warning. -/
def resolveCourse (catalog : Catalog) (rc : RequestedCourse) :
    Option (List Section) × List String :=
  match lookupCourse catalog rc.course with
  | none => (none, [noDataWarning rc.course])
  | some secs =>
    match rc.sectionId with
    | some sid =>
      match List.find? (fun s => s.sectionId == sid) secs with
      | some s => (some [s], [])
      | none => (none, [pinNotFoundWarning rc.course sid])
    | none => (some secs, [])

/-- Modelled from the spec, section 4.1: resolve every requested course in
order, collecting surviving candidate lists and warnings; a course with an
empty candidate list is excluded. -/
def resolveAll (catalog : Catalog) :
    List RequestedCourse → List (String × List Section) × List String
  | [] => ([], [])
  | rc :: rest =>
    match (resolveCourse catalog rc).1 with
    | some cands =>
      if cands.isEmpty then
        ((resolveAll catalog rest).1,
          (resolveCourse catalog rc).2 ++ (resolveAll catalog rest).2)
      else
        ((rc.course, cands) :: (resolveAll catalog rest).1,
          (resolveCourse catalog rc).2 ++ (resolveAll catalog rest).2)
    | none =>
      ((resolveAll catalog rest).1,
        (resolveCourse catalog rc).2 ++ (resolveAll catalog rest).2)

structure Result where
  schedules : List (List Section)
  warnings : List String
deriving DecidableEq

/-- Modelled from the spec: the engine.  Resolve, short-circuit when no
course survives (attaching the terminal warning), otherwise enumerate
conflict-free combinations. -/
def runEngine (catalog : Catalog) (request : List RequestedCourse)
    (blocked : List Meeting) : Result :=
  let resolved := resolveAll catalog request
  if resolved.1.isEmpty then
    ⟨[], resolved.2 ++ [terminalWarning]⟩
  else
    ⟨generateSchedules blocked (resolved.1.map (·.2)), resolved.2⟩

/-! ### Result-level slot metadata (modelled from the spec, section 4.4) -/

/-- Modelled from the spec: the canonical slot table, pairing each slot
label with its (start, end) interval in minutes since midnight. -/
def canonicalSlotTable : List (String × Nat × Nat) :=
  [("08:40-09:30", 520, 570), ("09:40-10:30", 580, 630),
   ("10:40-11:30", 640, 690), ("11:40-12:30", 700, 750),
   ("12:40-13:30", 760, 810), ("13:40-14:30", 820, 870),
   ("14:40-15:30", 880, 930), ("15:40-16:30", 940, 990),
   ("16:40-17:30", 1000, 1050), ("17:40-18:30", 1060, 1110),
   ("18:40-19:30", 1120, 1170), ("19:40-20:30", 1180, 1230),
   ("20:40-21:30", 1240, 1290), ("21:40-22:30", 1300, 1350)]

/-- Modelled from the spec, section 4.4: the labels of the canonical slots
whose interval intersects at least one meeting across all accepted
schedules. -/
def slotsUsed (table : List (String × Nat × Nat))
    (schedules : List (List Section)) : List String :=
  (table.filter fun e =>
    schedules.any fun sched =>
      (meetingsOf sched).any fun m =>
        decide (m.start < e.2.2) && decide (e.2.1 < m.stop)).map (·.1)

/-! ### Concrete sample data (spec section 8, Scenario A style) used by the
witness theorems below -/

def exMeetingMon1 : Meeting := ⟨"Monday", 520, 570, "C101"⟩

def exMeetingMon2 : Meeting := ⟨"Monday", 580, 630, "C102"⟩

def exMeetingMon3 : Meeting := ⟨"Monday", 640, 690, "C103"⟩

def exSecX1 : Section := ⟨"CSE101", "1", [exMeetingMon1]⟩

def exSecX2 : Section := ⟨"CSE101", "2", [exMeetingMon2]⟩

def exSecY1 : Section := ⟨"MATH101", "1", [exMeetingMon1]⟩

/-! ## Properties of the warning deduplication filter -/

theorem uniqueWarningsAux_sublist (seen ws : List String) :
    (uniqueWarningsAux seen ws).Sublist ws := by
  induction ws generalizing seen with
  | nil => simp [uniqueWarningsAux]
  | cons w ws ih =>
    by_cases h1 : normalizeWarning w = noValidCoursesMsg
    · simp only [uniqueWarningsAux, if_pos h1]
      exact (ih seen).cons w
    · by_cases h2 : normalizeWarning w ∈ seen
      · simp only [uniqueWarningsAux, if_neg h1, if_pos h2]
        exact (ih seen).cons w
      · simp only [uniqueWarningsAux, if_neg h1, if_neg h2]
        exact (ih _).cons₂ w

theorem uniqueWarningsAux_mem (seen ws : List String) (w : String)
    (h : w ∈ uniqueWarningsAux seen ws) :
    normalizeWarning w ∉ seen ∧ normalizeWarning w ≠ noValidCoursesMsg := by
  induction ws generalizing seen with
  | nil => simp [uniqueWarningsAux] at h
  | cons w' ws ih =>
    by_cases h1 : normalizeWarning w' = noValidCoursesMsg
    · rw [uniqueWarningsAux, if_pos h1] at h
      exact ih seen h
    · by_cases h2 : normalizeWarning w' ∈ seen
      · rw [uniqueWarningsAux, if_neg h1, if_pos h2] at h
        exact ih seen h
      · rw [uniqueWarningsAux, if_neg h1, if_neg h2] at h
        rcases List.mem_cons.mp h with rfl | h
        · exact ⟨h2, h1⟩
        · have := ih _ h
          exact ⟨fun hm => this.1 (List.mem_cons_of_mem _ hm), this.2⟩

theorem uniqueWarningsAux_pairwise (seen ws : List String) :
    (uniqueWarningsAux seen ws).Pairwise
      (fun a b => normalizeWarning a ≠ normalizeWarning b) := by
  induction ws generalizing seen with
  | nil => simp [uniqueWarningsAux]
  | cons w' ws ih =>
    by_cases h1 : normalizeWarning w' = noValidCoursesMsg
    · rw [uniqueWarningsAux, if_pos h1]; exact ih seen
    · by_cases h2 : normalizeWarning w' ∈ seen
      · rw [uniqueWarningsAux, if_neg h1, if_pos h2]; exact ih seen
      · rw [uniqueWarningsAux, if_neg h1, if_neg h2]
        refine List.Pairwise.cons (fun v hv => ?_) (ih _)
        have := (uniqueWarningsAux_mem _ _ _ hv).1
        intro heq
        exact this (by rw [← heq]; exact List.mem_cons_self _ _)

theorem uniqueWarningsAux_earliest (seen ws : List String) (w : String)
    (h : w ∈ uniqueWarningsAux seen ws) :
    ∃ l₁ l₂, ws = l₁ ++ w :: l₂ ∧
      ∀ v ∈ l₁, normalizeWarning v ≠ normalizeWarning w := by
  induction ws generalizing seen with
  | nil => simp [uniqueWarningsAux] at h
  | cons w' ws ih =>
    by_cases h1 : normalizeWarning w' = noValidCoursesMsg
    · rw [uniqueWarningsAux, if_pos h1] at h
      obtain ⟨l₁, l₂, heq, hall⟩ := ih seen h
      refine ⟨w' :: l₁, l₂, by rw [heq]; rfl, fun v hv => ?_⟩
      rcases List.mem_cons.mp hv with rfl | hv
      · rw [h1]
        exact fun hc => (uniqueWarningsAux_mem seen ws w h).2 hc.symm
      · exact hall v hv
    · by_cases h2 : normalizeWarning w' ∈ seen
      · rw [uniqueWarningsAux, if_neg h1, if_pos h2] at h
        obtain ⟨l₁, l₂, heq, hall⟩ := ih seen h
        refine ⟨w' :: l₁, l₂, by rw [heq]; rfl, fun v hv => ?_⟩
        rcases List.mem_cons.mp hv with rfl | hv
        · intro hc
          exact (uniqueWarningsAux_mem seen ws w h).1 (hc ▸ h2)
        · exact hall v hv
      · rw [uniqueWarningsAux, if_neg h1, if_neg h2] at h
        rcases List.mem_cons.mp h with rfl | h
        · exact ⟨[], ws, rfl, by simp⟩
        · obtain ⟨l₁, l₂, heq, hall⟩ := ih _ h
          refine ⟨w' :: l₁, l₂, by rw [heq]; rfl, fun v hv => ?_⟩
          rcases List.mem_cons.mp hv with rfl | hv
          · intro hc
            exact (uniqueWarningsAux_mem _ ws w h).1
              (by rw [← hc]; exact List.mem_cons_self _ _)
          · exact hall v hv

/-- Claim C3: the warning deduplication keeps, in input order, one entry per
class of trimmed-lowercased text, each being the earliest input entry of its
class: the output is a subsequence of the input, no two output entries share
a normalization, and every output entry has no earlier input entry of equal
normalization. -/
theorem uniqueWarnings_dedup (ws : List String) (w : String)
    (hw : w ∈ uniqueWarnings ws) :
    (uniqueWarnings ws).Sublist ws ∧
    (uniqueWarnings ws).Pairwise
      (fun a b => normalizeWarning a ≠ normalizeWarning b) ∧
    ∃ l₁ l₂, ws = l₁ ++ w :: l₂ ∧
      ∀ v ∈ l₁, normalizeWarning v ≠ normalizeWarning w :=
  ⟨uniqueWarningsAux_sublist [] ws, uniqueWarningsAux_pairwise [] ws,
    uniqueWarningsAux_earliest [] ws w hw⟩

/-- Witness for Claim C3 at a concrete warning list. -/
theorem uniqueWarnings_dedup_witness :
    "Warn A" ∈ uniqueWarnings ["Warn A", " warn a ", "Warn B"] ∧
    ((uniqueWarnings ["Warn A", " warn a ", "Warn B"]).Sublist
        ["Warn A", " warn a ", "Warn B"] ∧
      (uniqueWarnings ["Warn A", " warn a ", "Warn B"]).Pairwise
        (fun a b => normalizeWarning a ≠ normalizeWarning b) ∧
      ∃ l₁ l₂, ["Warn A", " warn a ", "Warn B"] = l₁ ++ "Warn A" :: l₂ ∧
        ∀ v ∈ l₁, normalizeWarning v ≠ normalizeWarning ("Warn A")) :=
  ⟨by decide, uniqueWarnings_dedup _ _ (by decide)⟩

/-- Claim C10: the warning deduplication filter is idempotent. -/
theorem uniqueWarnings_idempotent (ws : List String) :
    uniqueWarnings (uniqueWarnings ws) = uniqueWarnings ws := by
  have hid : ∀ (l seen : List String),
      (∀ v ∈ l, normalizeWarning v ∉ seen ∧
        normalizeWarning v ≠ noValidCoursesMsg) →
      l.Pairwise (fun a b => normalizeWarning a ≠ normalizeWarning b) →
      uniqueWarningsAux seen l = l := by
    intro l
    induction l with
    | nil => intro seen _ _; rfl
    | cons w l ih =>
      intro seen hclean hpw
      have hw := hclean w (List.mem_cons_self _ _)
      rw [uniqueWarningsAux, if_neg hw.2, if_neg hw.1]
      rw [List.pairwise_cons] at hpw
      refine congrArg (w :: ·) (ih _ (fun v hv => ⟨?_, ?_⟩) hpw.2)
      · intro hm
        rcases List.mem_cons.mp hm with heq | hm
        · exact hpw.1 v hv heq.symm
        · exact (hclean v (List.mem_cons_of_mem _ hv)).1 hm
      · exact (hclean v (List.mem_cons_of_mem _ hv)).2
  exact hid _ []
    (fun v hv => ⟨List.not_mem_nil _, (uniqueWarningsAux_mem [] ws v hv).2⟩)
    (uniqueWarningsAux_pairwise [] ws)

/-- Claim C4, as stated, is false: the display filter removes the terminal
no-valid-courses message unconditionally, so even when every requested
course is excluded (here: a request against an empty catalog, which the
engine answers with zero schedules and the terminal warning attached) the
displayed warning set does not contain the terminal message, let alone
exactly it. -/
theorem terminal_message_counterexample :
    (runEngine [] [⟨"CS101", none⟩] []).schedules = [] ∧
    terminalWarning ∈ (runEngine [] [⟨"CS101", none⟩] []).warnings ∧
    uniqueWarnings ((runEngine [] [⟨"CS101", none⟩] []).warnings) ≠
      [terminalWarning] ∧
    terminalWarning ∉
      uniqueWarnings ((runEngine [] [⟨"CS101", none⟩] []).warnings) := by
  decide

/-- Claim C4, amended: the terminal no-valid-courses message is never
present in the displayed warning set — the display filter drops every
warning whose trimmed lowercased text equals it, whether or not any
requested course survived. -/
theorem terminal_message_never_displayed (ws : List String) (w : String)
    (h : w ∈ uniqueWarnings ws) : normalizeWarning w ≠ noValidCoursesMsg :=
  (uniqueWarningsAux_mem [] ws w h).2

/-- Witness for the amended Claim C4 at a concrete warning list. -/
theorem terminal_message_never_displayed_witness :
    "Course ABC123 could not be scheduled." ∈
      uniqueWarnings ["Course ABC123 could not be scheduled."] ∧
    normalizeWarning ("Course ABC123 could not be scheduled.") ≠
      noValidCoursesMsg :=
  ⟨by decide, terminal_message_never_displayed
    ["Course ABC123 could not be scheduled."]
    ("Course ABC123 could not be scheduled.") (by decide)⟩

/-- Claim C9, as stated, is false: the normalized deduplication and the
Set-based deduplication disagree already on a list whose two entries differ
only in case. -/
theorem uniqueWarnings_versions_differ :
    uniqueWarnings ["Warn A", "warn a"] ≠
      uniqueWarningsSetBased ["Warn A", "warn a"] := by
  decide

theorem dedup_agree_aux (ws : List String) :
    ∀ (nseen eseen : List String),
      (∀ w ∈ ws, normalizeWarning w ≠ noValidCoursesMsg) →
      (∀ v ∈ ws, ∀ w ∈ ws, normalizeWarning v = normalizeWarning w → v = w) →
      (∀ w ∈ ws, (normalizeWarning w ∈ nseen ↔ w ∈ eseen)) →
      uniqueWarningsAux nseen ws = dedupExactAux eseen ws := by
  induction ws with
  | nil => intro _ _ _ _ _; rfl
  | cons w ws ih =>
    intro nseen eseen hterm hinj hinv
    have ht := hterm w (List.mem_cons_self _ _)
    rw [uniqueWarningsAux, if_neg ht, dedupExactAux]
    by_cases hm : normalizeWarning w ∈ nseen
    · have hme : w ∈ eseen := (hinv w (List.mem_cons_self _ _)).mp hm
      rw [if_pos hm, if_pos hme]
      exact ih nseen eseen (fun v hv => hterm v (List.mem_cons_of_mem _ hv))
        (fun v hv u hu => hinj v (List.mem_cons_of_mem _ hv) u
          (List.mem_cons_of_mem _ hu))
        (fun v hv => hinv v (List.mem_cons_of_mem _ hv))
    · have hme : w ∉ eseen := fun hc =>
        hm ((hinv w (List.mem_cons_self _ _)).mpr hc)
      rw [if_neg hm, if_neg hme]
      refine congrArg (w :: ·) (ih _ _
        (fun v hv => hterm v (List.mem_cons_of_mem _ hv))
        (fun v hv u hu => hinj v (List.mem_cons_of_mem _ hv) u
          (List.mem_cons_of_mem _ hu))
        (fun v hv => ?_))
      constructor
      · intro hin
        rcases List.mem_cons.mp hin with heq | hin
        · have : v = w := hinj v (List.mem_cons_of_mem _ hv) w
            (List.mem_cons_self _ _) heq
          rw [this]
          exact List.mem_cons_self _ _
        · exact List.mem_cons_of_mem _
            ((hinv v (List.mem_cons_of_mem _ hv)).mp hin)
      · intro hin
        rcases List.mem_cons.mp hin with rfl | hin
        · exact List.mem_cons_self _ _
        · exact List.mem_cons_of_mem _
            ((hinv v (List.mem_cons_of_mem _ hv)).mpr hin)

/-- Claim C9, amended: the two deduplication versions agree exactly on
warning lists in which no entry normalizes to the terminal message and in
which entries of equal normalization are identical; in general they differ
(see the counterexample). -/
theorem uniqueWarnings_versions_agree (ws : List String)
    (h1 : ∀ w ∈ ws, normalizeWarning w ≠ noValidCoursesMsg)
    (h2 : ∀ v ∈ ws, ∀ w ∈ ws, normalizeWarning v = normalizeWarning w → v = w) :
    uniqueWarnings ws = uniqueWarningsSetBased ws :=
  dedup_agree_aux ws [] [] h1 h2 (by simp)

/-- Witness for the amended Claim C9 at a concrete warning list. -/
theorem uniqueWarnings_versions_agree_witness :
    (∀ w ∈ ["Warn A", "Warn B", "Warn A"],
      normalizeWarning w ≠ noValidCoursesMsg) ∧
    uniqueWarnings ["Warn A", "Warn B", "Warn A"] =
      uniqueWarningsSetBased ["Warn A", "Warn B", "Warn A"] :=
  ⟨by decide, uniqueWarnings_versions_agree _ (by decide) (by decide)⟩

/-- Claim C2: the per-cell overlap test of the timetable grid is not
equivalent to the strict half-open interval-overlap predicate — a session
ending exactly when a slot starts is placed in the slot's cell although the
half-open intervals do not overlap. -/
theorem cell_test_not_strict_overlap :
    ∃ sessStart sessEnd slotStart slotEnd : String,
      strLtB sessStart sessEnd = true ∧ strLtB slotStart slotEnd = true ∧
      cellOverlapTest sessStart sessEnd slotStart slotEnd ≠
        strictOverlapTest sessStart sessEnd slotStart slotEnd :=
  ⟨"08:40", "09:30", "09:30", "10:30", by decide, by decide, by decide⟩

/-! ## General list helpers -/

theorem filter_flatMap {α β : Type} (l : List α) (f : α → List β) (p : β → Bool) :
    (l.flatMap f).filter p = l.flatMap fun a => (f a).filter p := by
  induction l with
  | nil => rfl
  | cons a l ih => simp [List.flatMap_cons, List.filter_append, ih]

theorem filter_map_comm {α β : Type} (l : List α) (f : α → β) (p : β → Bool) :
    (l.map f).filter p = (l.filter fun a => p (f a)).map f := by
  induction l with
  | nil => rfl
  | cons a l ih =>
    by_cases h : p (f a) <;> simp [List.filter_cons, h, ih]

theorem all_and {α : Type} (l : List α) (p q : α → Bool) :
    (l.all fun a => p a && q a) = (l.all p && l.all q) := by
  induction l with
  | nil => rfl
  | cons a l ih =>
    simp [List.all_cons, ih, Bool.and_assoc, Bool.and_comm, Bool.and_left_comm]

theorem all_not_eq_not_any {α : Type} (l : List α) (p : α → Bool) :
    (l.all fun a => !(p a)) = !(l.any p) := by
  induction l with
  | nil => rfl
  | cons a l ih => simp [List.all_cons, List.any_cons, ih]

/-! ## Properties of the conflict predicate -/

theorem overlaps_iff (m1 m2 : Meeting) :
    overlaps m1 m2 = true ↔
      m1.day = m2.day ∧ m1.start < m2.stop ∧ m2.start < m1.stop := by
  simp [overlaps, Bool.and_assoc]

theorem overlaps_comm (m1 m2 : Meeting) : overlaps m1 m2 = overlaps m2 m1 := by
  rw [Bool.eq_iff_iff]
  simp only [overlaps_iff]
  constructor
  · rintro ⟨h1, h2, h3⟩; exact ⟨h1.symm, h3, h2⟩
  · rintro ⟨h1, h2, h3⟩; exact ⟨h1.symm, h3, h2⟩

theorem overlaps_eq_false_iff (m1 m2 : Meeting) :
    overlaps m1 m2 = false ↔ NoClash m1 m2 := by
  rw [← Bool.not_eq_true, overlaps_iff, NoClash]
  constructor
  · intro h hday ⟨h1, h2⟩
    exact h ⟨hday, h1, h2⟩
  · rintro h ⟨hday, h1, h2⟩
    exact h hday ⟨h1, h2⟩

theorem sectionConflicts_eq_false_iff (s : Section) (ms : List Meeting) :
    sectionConflicts s ms = false ↔
      ∀ m ∈ s.meetings, ∀ m' ∈ ms, overlaps m m' = false := by
  simp [sectionConflicts]

theorem sectionConflicts_append (s : Section) (ms ms' : List Meeting) :
    sectionConflicts s (ms ++ ms') =
      (sectionConflicts s ms || sectionConflicts s ms') := by
  rw [Bool.eq_iff_iff]
  simp only [sectionConflicts, List.any_eq_true, List.mem_append,
    Bool.or_eq_true]
  constructor
  · rintro ⟨m, hm, m', hm' | hm', hov⟩
    · exact Or.inl ⟨m, hm, m', hm', hov⟩
    · exact Or.inr ⟨m, hm, m', hm', hov⟩
  · rintro (⟨m, hm, m', hm', hov⟩ | ⟨m, hm, m', hm', hov⟩)
    · exact ⟨m, hm, m', Or.inl hm', hov⟩
    · exact ⟨m, hm, m', Or.inr hm', hov⟩

theorem sectionsConflict_comm (s t : Section) :
    sectionsConflict s t = sectionsConflict t s := by
  rw [Bool.eq_iff_iff]
  simp only [sectionsConflict, sectionConflicts, List.any_eq_true]
  constructor
  · rintro ⟨m, hm, m', hm', hov⟩
    exact ⟨m', hm', m, hm, by rwa [overlaps_comm]⟩
  · rintro ⟨m, hm, m', hm', hov⟩
    exact ⟨m', hm', m, hm, by rwa [overlaps_comm]⟩

theorem sectionConflicts_nil (s : Section) : sectionConflicts s [] = false := by
  simp [sectionConflicts]

/-! ## Backtracking versus product-then-filter -/

theorem backtrack_eq_filter (blocked : List Meeting)
    (cls : List (List Section)) :
    ∀ acc, backtrack blocked cls acc =
      (productCombos cls).filter (okFrom blocked acc) := by
  induction cls with
  | nil =>
    intro acc
    show [[]] = List.filter _ [[]]
    rw [List.filter_cons]
    simp [okFrom]
  | cons cands rest ih =>
    intro acc
    show cands.flatMap _ = (cands.flatMap _).filter _
    rw [filter_flatMap]
    refine congrArg (List.flatMap cands) (funext fun s => ?_)
    rw [filter_map_comm]
    by_cases hc : sectionConflicts s (acc ++ blocked) = true
    · have hpred : (fun l => okFrom blocked acc (s :: l)) = fun _ => false := by
        funext l
        show (!(sectionConflicts s (acc ++ blocked)) && _) = false
        rw [hc, Bool.not_true, Bool.false_and]
      rw [hpred]
      simp [hc]
    · have hcf : sectionConflicts s (acc ++ blocked) = false :=
        Bool.not_eq_true _ ▸ hc
      have hpred : (fun l => okFrom blocked acc (s :: l)) =
          okFrom blocked (acc ++ s.meetings) := by
        funext l
        show (!(sectionConflicts s (acc ++ blocked)) && _) = _
        rw [hcf, Bool.not_false, Bool.true_and]
      rw [hpred, ← ih (acc ++ s.meetings)]
      simp [hcf]

theorem okFrom_eq (blocked : List Meeting) (l : List Section) :
    ∀ acc, okFrom blocked acc l =
      ((l.all fun s => !(sectionConflicts s acc)) && comboValid blocked l) := by
  induction l with
  | nil => intro acc; rfl
  | cons s rest ih =>
    intro acc
    simp only [okFrom, comboValid, List.all_cons]
    rw [ih (acc ++ s.meetings), sectionConflicts_append]
    have h2 : (fun t => !(sectionConflicts t (acc ++ s.meetings))) =
        fun t => !(sectionConflicts t acc) && !(sectionsConflict s t) := by
      funext t
      rw [sectionConflicts_append, Bool.not_or]
      have h3 : sectionConflicts t s.meetings = sectionsConflict s t := by
        show sectionsConflict t s = sectionsConflict s t
        exact sectionsConflict_comm t s
      rw [h3]
    rw [h2, all_and, ← all_not_eq_not_any rest fun t => sectionsConflict s t]
    generalize sectionConflicts s acc = A
    generalize sectionConflicts s blocked = B
    generalize (rest.all fun t => !(sectionConflicts t acc)) = P
    generalize (rest.all fun t => !(sectionsConflict s t)) = Q
    generalize comboValid blocked rest = C
    cases A <;> cases B <;> cases P <;> cases Q <;> cases C <;> rfl

/-- Claim C5: the incremental backtracking enumeration returns exactly the
conflict-free combinations that full Cartesian-product enumeration followed
by conflict filtering returns, in the same order: no valid combination is
dropped and no invalid one is added. -/
theorem backtracking_equals_product_filter (blocked : List Meeting)
    (cands : List (List Section)) :
    generateSchedules blocked cands =
      (productCombos cands).filter (comboValid blocked) := by
  rw [generateSchedules, backtrack_eq_filter blocked cands []]
  have h : okFrom blocked [] = comboValid blocked := by
    funext l
    rw [okFrom_eq]
    have : (l.all fun s => !(sectionConflicts s [])) = true := by
      simp [sectionConflicts_nil]
    rw [this, Bool.true_and]
  rw [h]

/-! ## The no-overlap invariant of returned schedules -/

theorem mem_productCombos (cls : List (List Section)) (sched : List Section)
    (h : sched ∈ productCombos cls) : ∀ s ∈ sched, ∃ cl ∈ cls, s ∈ cl := by
  induction cls generalizing sched with
  | nil =>
    intro s hs
    simp only [productCombos, List.mem_singleton] at h
    subst h
    simp at hs
  | cons cands rest ih =>
    intro s hs
    simp only [productCombos, List.mem_flatMap, List.mem_map] at h
    obtain ⟨a, ha, l, hl, heq⟩ := h
    subst heq
    rcases List.mem_cons.mp hs with rfl | hs
    · exact ⟨cands, List.mem_cons_self _ _, ha⟩
    · obtain ⟨cl, hcl, hscl⟩ := ih l hl s hs
      exact ⟨cl, List.mem_cons_of_mem _ hcl, hscl⟩

theorem comboValid_cons_parts (blocked : List Meeting) (s : Section)
    (rest : List Section) (h : comboValid blocked (s :: rest) = true) :
    (∀ t ∈ rest, sectionsConflict s t = false) ∧
    sectionConflicts s blocked = false ∧ comboValid blocked rest = true := by
  rw [comboValid, Bool.and_eq_true, Bool.and_eq_true] at h
  obtain ⟨⟨h1, h2⟩, h3⟩ := h
  refine ⟨fun t ht => ?_, ?_, h3⟩
  · have h1' : (rest.any fun t => sectionsConflict s t) = false := by
      revert h1; cases rest.any fun t => sectionsConflict s t <;> simp
    have ht' := List.any_eq_false.mp h1' t ht
    revert ht'; cases sectionsConflict s t <;> simp
  · revert h2; cases sectionConflicts s blocked <;> simp

theorem comboValid_pairwise (blocked : List Meeting) :
    ∀ l : List Section, comboValid blocked l = true →
      (∀ s ∈ l, s.meetings.Pairwise NoClash) →
      blocked.Pairwise NoClash →
      (meetingsOf l ++ blocked).Pairwise NoClash := by
  intro l
  induction l with
  | nil => intro _ _ hblk; simpa [meetingsOf]
  | cons s rest ih =>
    intro hv hint hblk
    obtain ⟨h1, h2, h3⟩ := comboValid_cons_parts blocked s rest hv
    have hm : meetingsOf (s :: rest) ++ blocked =
        s.meetings ++ (meetingsOf rest ++ blocked) := by
      simp [meetingsOf]
    rw [hm, List.pairwise_append]
    refine ⟨hint s (List.mem_cons_self _ _),
      ih h3 (fun t ht => hint t (List.mem_cons_of_mem _ ht)) hblk,
      fun m hm1 m' hm2 => ?_⟩
    rcases List.mem_append.mp hm2 with hm2 | hm2
    · rw [meetingsOf, List.mem_flatMap] at hm2
      obtain ⟨t, ht, hmt⟩ := hm2
      have hov : overlaps m m' = false :=
        (sectionConflicts_eq_false_iff s t.meetings).mp (h1 t ht) m hm1 m' hmt
      exact (overlaps_eq_false_iff m m').mp hov
    · have hov : overlaps m m' = false :=
        (sectionConflicts_eq_false_iff s blocked).mp h2 m hm1 m' hm2
      exact (overlaps_eq_false_iff m m').mp hov

/-- Claim C1: every schedule returned by the enumeration is conflict-free —
over the meetings of its sections together with the synthetic
blocked-interval meetings, any two meetings on the same day have
non-overlapping half-open intervals.  The candidate sections are assumed
internally conflict-free and the blocked intervals mutually conflict-free,
as catalog data and the distinct grid slots guarantee. -/
theorem no_overlap_invariant (blocked : List Meeting)
    (cands : List (List Section)) (sched : List Section)
    (hsec : ∀ cl ∈ cands, ∀ s ∈ cl, s.meetings.Pairwise NoClash)
    (hblk : blocked.Pairwise NoClash)
    (hmem : sched ∈ generateSchedules blocked cands) :
    (meetingsOf sched ++ blocked).Pairwise NoClash := by
  rw [generateSchedules, backtrack_eq_filter blocked cands []] at hmem
  have hprod : sched ∈ productCombos cands := List.mem_of_mem_filter hmem
  have hok : okFrom blocked [] sched = true := List.of_mem_filter hmem
  have hcv : comboValid blocked sched = true := by
    rw [okFrom_eq, Bool.and_eq_true] at hok
    exact hok.2
  refine comboValid_pairwise blocked sched hcv (fun s hs => ?_) hblk
  obtain ⟨cl, hcl, hscl⟩ := mem_productCombos cands sched hprod s hs
  exact hsec cl hcl s hscl

/-- Witness for Claim C1 on concrete data: two candidate sections for one
course, one for another, one blocked interval. -/
theorem no_overlap_invariant_witness :
    (∀ cl ∈ [[exSecX1, exSecX2], [exSecY1]], ∀ s ∈ cl,
      s.meetings.Pairwise NoClash) ∧
    ([exMeetingMon3].Pairwise NoClash) ∧
    [exSecX2, exSecY1] ∈
      generateSchedules [exMeetingMon3] [[exSecX1, exSecX2], [exSecY1]] ∧
    (meetingsOf [exSecX2, exSecY1] ++ [exMeetingMon3]).Pairwise NoClash :=
  ⟨by decide, by decide, by decide,
    no_overlap_invariant [exMeetingMon3] [[exSecX1, exSecX2], [exSecY1]]
      [exSecX2, exSecY1] (by decide) (by decide) (by decide)⟩

/-! ## Pin enforcement -/

theorem lookupCourse_sections (catalog : Catalog)
    (hcat : ∀ e ∈ catalog, ∀ s ∈ e.2, s.course = e.1)
    (c : String) (secs : List Section)
    (h : lookupCourse catalog c = some secs) : ∀ s ∈ secs, s.course = c := by
  unfold lookupCourse at h
  cases hfind : List.find? (fun e => e.1 == c) catalog with
  | none => rw [hfind] at h; cases h
  | some e =>
    rw [hfind] at h
    have h2 : e.2 = secs := Option.some.inj h
    have hm := List.mem_of_find?_eq_some hfind
    have hc : e.1 = c := by simpa using List.find?_some hfind
    intro s hs
    rw [← h2] at hs
    rw [hcat e hm s hs, hc]

theorem resolveCourse_eq_no_data (catalog : Catalog) (rc : RequestedCourse)
    (h : lookupCourse catalog rc.course = none) :
    resolveCourse catalog rc = (none, [noDataWarning rc.course]) := by
  simp [resolveCourse, h]

theorem resolveCourse_eq_all (catalog : Catalog) (rc : RequestedCourse)
    (secs : List Section) (h : lookupCourse catalog rc.course = some secs)
    (hp : rc.sectionId = none) : resolveCourse catalog rc = (some secs, []) := by
  simp [resolveCourse, h, hp]

theorem resolveCourse_eq_pin_found (catalog : Catalog) (rc : RequestedCourse)
    (secs : List Section) (sid : String) (sf : Section)
    (h : lookupCourse catalog rc.course = some secs)
    (hp : rc.sectionId = some sid)
    (hf : List.find? (fun s => s.sectionId == sid) secs = some sf) :
    resolveCourse catalog rc = (some [sf], []) := by
  simp [resolveCourse, h, hp, hf]

theorem resolveCourse_eq_pin_missing (catalog : Catalog) (rc : RequestedCourse)
    (secs : List Section) (sid : String)
    (h : lookupCourse catalog rc.course = some secs)
    (hp : rc.sectionId = some sid)
    (hf : List.find? (fun s => s.sectionId == sid) secs = none) :
    resolveCourse catalog rc = (none, [pinNotFoundWarning rc.course sid]) := by
  simp [resolveCourse, h, hp, hf]

theorem resolveCourse_cands (catalog : Catalog) (rc : RequestedCourse)
    (cands : List Section) (h : (resolveCourse catalog rc).1 = some cands) :
    ∃ secs, lookupCourse catalog rc.course = some secs ∧
      (∀ s ∈ cands, s ∈ secs) ∧
      ∀ sid, rc.sectionId = some sid → ∀ s ∈ cands, s.sectionId = sid := by
  cases hlook : lookupCourse catalog rc.course with
  | none => rw [resolveCourse_eq_no_data catalog rc hlook] at h; cases h
  | some secs =>
    cases hpin : rc.sectionId with
    | none =>
      rw [resolveCourse_eq_all catalog rc secs hlook hpin] at h
      have hsc : secs = cands := Option.some.inj h
      subst hsc
      exact ⟨secs, rfl, fun s hs => hs, fun sid hsid => nomatch hsid⟩
    | some sid =>
      cases hfind : List.find? (fun s => s.sectionId == sid) secs with
      | none =>
        rw [resolveCourse_eq_pin_missing catalog rc secs sid hlook hpin
          hfind] at h
        cases h
      | some sf =>
        rw [resolveCourse_eq_pin_found catalog rc secs sid sf hlook hpin
          hfind] at h
        have hsc : [sf] = cands := Option.some.inj h
        subst hsc
        refine ⟨secs, rfl, ?_, ?_⟩
        · intro s hs
          rw [List.mem_singleton.mp hs]
          exact List.mem_of_find?_eq_some hfind
        · intro sid' hsid' s hs
          have hss : sid' = sid := (Option.some.inj hsid').symm
          subst hss
          rw [List.mem_singleton.mp hs]
          simpa using List.find?_some hfind

theorem resolveCourse_pin_missing (catalog : Catalog) (rc : RequestedCourse)
    (sid : String) (hpin : rc.sectionId = some sid)
    (secs : List Section) (hlook : lookupCourse catalog rc.course = some secs)
    (hnone : ∀ s ∈ secs, s.sectionId ≠ sid) :
    resolveCourse catalog rc = (none, [pinNotFoundWarning rc.course sid]) := by
  have hf : List.find? (fun s => s.sectionId == sid) secs = none :=
    List.find?_eq_none.mpr fun s hs => by simpa using hnone s hs
  exact resolveCourse_eq_pin_missing catalog rc secs sid hlook hpin hf

theorem resolveAll_snd (catalog : Catalog) (rc0 : RequestedCourse)
    (rest : List RequestedCourse) :
    (resolveAll catalog (rc0 :: rest)).2 =
      (resolveCourse catalog rc0).2 ++ (resolveAll catalog rest).2 := by
  cases ho : (resolveCourse catalog rc0).1 with
  | none => simp [resolveAll, ho]
  | some cl => by_cases he : cl.isEmpty <;> simp [resolveAll, ho, he]

theorem resolveAll_warning_mem (catalog : Catalog) :
    ∀ (req : List RequestedCourse) (rc : RequestedCourse), rc ∈ req →
      ∀ w ∈ (resolveCourse catalog rc).2, w ∈ (resolveAll catalog req).2 := by
  intro req
  induction req with
  | nil => intro rc h; cases h
  | cons rc0 rest ih =>
    intro rc hrc w hw
    rw [resolveAll_snd]
    rcases List.mem_cons.mp hrc with rfl | hrc
    · exact List.mem_append_left _ hw
    · exact List.mem_append_right _ (ih rc hrc w hw)

theorem resolveAll_survivor (catalog : Catalog) :
    ∀ (req : List RequestedCourse) (e : String × List Section),
      e ∈ (resolveAll catalog req).1 →
      ∃ rc ∈ req, rc.course = e.1 ∧ (resolveCourse catalog rc).1 = some e.2 := by
  intro req
  induction req with
  | nil => intro e h; simp [resolveAll] at h
  | cons rc0 rest ih =>
    intro e h
    have hlift : e ∈ (resolveAll catalog rest).1 →
        ∃ rc ∈ rc0 :: rest, rc.course = e.1 ∧
          (resolveCourse catalog rc).1 = some e.2 := by
      intro h'
      obtain ⟨rc, hrc, h1, h2⟩ := ih e h'
      exact ⟨rc, List.mem_cons_of_mem _ hrc, h1, h2⟩
    cases ho : (resolveCourse catalog rc0).1 with
    | none =>
      rw [show (resolveAll catalog (rc0 :: rest)).1 =
        (resolveAll catalog rest).1 by simp [resolveAll, ho]] at h
      exact hlift h
    | some cl =>
      by_cases he : cl.isEmpty
      · rw [show (resolveAll catalog (rc0 :: rest)).1 =
          (resolveAll catalog rest).1 by simp [resolveAll, ho, he]] at h
        exact hlift h
      · rw [show (resolveAll catalog (rc0 :: rest)).1 =
          (rc0.course, cl) :: (resolveAll catalog rest).1 by
            simp [resolveAll, ho, he]] at h
        rcases List.mem_cons.mp h with rfl | h
        · exact ⟨rc0, List.mem_cons_self _ _, rfl, by rw [ho]⟩
        · exact hlift h

theorem schedule_section_origin (catalog : Catalog)
    (req : List RequestedCourse) (blocked : List Meeting)
    (sched : List Section) (s : Section)
    (hsched : sched ∈ (runEngine catalog req blocked).schedules)
    (hs : s ∈ sched) :
    ∃ rc ∈ req, ∃ cands, (resolveCourse catalog rc).1 = some cands ∧
      s ∈ cands := by
  cases hemp : (resolveAll catalog req).1.isEmpty with
  | true =>
    rw [show (runEngine catalog req blocked).schedules = [] by
      simp [runEngine, hemp]] at hsched
    cases hsched
  | false =>
    rw [show (runEngine catalog req blocked).schedules =
      generateSchedules blocked ((resolveAll catalog req).1.map (·.2)) by
        simp [runEngine, hemp]] at hsched
    rw [generateSchedules, backtrack_eq_filter] at hsched
    have hprod := List.mem_of_mem_filter hsched
    obtain ⟨cl, hcl, hscl⟩ := mem_productCombos _ _ hprod s hs
    rw [List.mem_map] at hcl
    obtain ⟨e, he, heq⟩ := hcl
    obtain ⟨rc, hrc, _, hres⟩ := resolveAll_survivor catalog req e he
    exact ⟨rc, hrc, e.2, hres, heq ▸ hscl⟩

/-- Claim C6: pin enforcement.  If a requested course carries a pinned
section id that resolves among the course's sections, every returned
schedule containing the course uses exactly that section; if the pinned id
is not found, the course appears in no returned schedule and a specific
warning naming the course and the pin is present.  Catalog entries are
assumed to list sections under their own course id, and requested course
ids are assumed distinct, as the source request form guarantees. -/
theorem pin_enforcement (catalog : Catalog) (request : List RequestedCourse)
    (blocked : List Meeting)
    (hcat : ∀ e ∈ catalog, ∀ s ∈ e.2, s.course = e.1)
    (hnodup : (request.map (fun r => r.course)).Nodup)
    (rc : RequestedCourse) (hrc : rc ∈ request)
    (sid : String) (hpin : rc.sectionId = some sid)
    (secs : List Section)
    (hlook : lookupCourse catalog rc.course = some secs) :
    ((∃ s ∈ secs, s.sectionId = sid) →
      ∀ sched ∈ (runEngine catalog request blocked).schedules,
        ∀ s ∈ sched, s.course = rc.course → s.sectionId = sid) ∧
    ((∀ s ∈ secs, s.sectionId ≠ sid) →
      (∀ sched ∈ (runEngine catalog request blocked).schedules,
        ∀ s ∈ sched, s.course ≠ rc.course) ∧
      pinNotFoundWarning rc.course sid ∈
        (runEngine catalog request blocked).warnings) := by
  have origin : ∀ sched ∈ (runEngine catalog request blocked).schedules,
      ∀ s ∈ sched, s.course = rc.course →
        ∃ cands, (resolveCourse catalog rc).1 = some cands ∧ s ∈ cands := by
    intro sched hsched s hs hcourse
    obtain ⟨rc', hrc', cands, hres, hscands⟩ :=
      schedule_section_origin catalog request blocked sched s hsched hs
    obtain ⟨secs', hlook', hsub, _⟩ :=
      resolveCourse_cands catalog rc' cands hres
    have hcourse' : s.course = rc'.course :=
      lookupCourse_sections catalog hcat rc'.course secs' hlook' s
        (hsub s hscands)
    have : rc' = rc :=
      List.inj_on_of_nodup_map hnodup hrc' hrc (by rw [← hcourse', hcourse])
    subst this
    exact ⟨cands, hres, hscands⟩
  constructor
  · intro _ sched hsched s hs hcourse
    obtain ⟨cands, hres, hscands⟩ := origin sched hsched s hs hcourse
    obtain ⟨_, _, _, hpinned⟩ := resolveCourse_cands catalog rc cands hres
    exact hpinned sid hpin s hscands
  · intro hnone
    have hmiss := resolveCourse_pin_missing catalog rc sid hpin secs hlook hnone
    constructor
    · intro sched hsched s hs hcourse
      obtain ⟨cands, hres, _⟩ := origin sched hsched s hs hcourse
      rw [hmiss] at hres
      cases hres
    · have hw : pinNotFoundWarning rc.course sid ∈
          (resolveCourse catalog rc).2 := by
        rw [hmiss]
        exact List.mem_singleton_self _
      have hw2 := resolveAll_warning_mem catalog request rc hrc _ hw
      cases hemp : (resolveAll catalog request).1.isEmpty with
      | true =>
        rw [show (runEngine catalog request blocked).warnings =
          (resolveAll catalog request).2 ++ [terminalWarning] by
            simp [runEngine, hemp]]
        exact List.mem_append_left _ hw2
      | false =>
        rw [show (runEngine catalog request blocked).warnings =
          (resolveAll catalog request).2 by simp [runEngine, hemp]]
        exact hw2

/-- Witness for Claim C6: a concrete request pinning section 2 of a
two-section course. -/
theorem pin_enforcement_witness :
    (∀ e ∈ [("CSE101", [exSecX1, exSecX2])], ∀ s ∈ e.2, s.course = e.1) ∧
    RequestedCourse.mk "CSE101" (some "2") ∈
      [RequestedCourse.mk "CSE101" (some "2")] ∧
    lookupCourse [("CSE101", [exSecX1, exSecX2])] "CSE101" =
      some [exSecX1, exSecX2] ∧
    (((∃ s ∈ [exSecX1, exSecX2], s.sectionId = "2") →
      ∀ sched ∈ (runEngine [("CSE101", [exSecX1, exSecX2])]
          [RequestedCourse.mk "CSE101" (some "2")] []).schedules,
        ∀ s ∈ sched, s.course = "CSE101" → s.sectionId = "2") ∧
    ((∀ s ∈ [exSecX1, exSecX2], s.sectionId ≠ "2") →
      (∀ sched ∈ (runEngine [("CSE101", [exSecX1, exSecX2])]
          [RequestedCourse.mk "CSE101" (some "2")] []).schedules,
        ∀ s ∈ sched, s.course ≠ "CSE101") ∧
      pinNotFoundWarning "CSE101" "2" ∈
        (runEngine [("CSE101", [exSecX1, exSecX2])]
          [RequestedCourse.mk "CSE101" (some "2")] []).warnings)) :=
  ⟨by decide, by decide, by decide,
    pin_enforcement [("CSE101", [exSecX1, exSecX2])]
      [RequestedCourse.mk "CSE101" (some "2")] [] (by decide) (by decide)
      (RequestedCourse.mk "CSE101" (some "2")) (by decide) "2" rfl
      [exSecX1, exSecX2] (by decide)⟩

/-! ## Result-level slot metadata and the timetable fallback -/

/-- Claim C7: a canonical slot label is in the result-level time-slot
metadata exactly when its interval intersects at least one meeting across
all accepted schedules, and when the computed list is empty the timetable
falls back to the default fixed slot grid. -/
theorem time_slot_metadata (table : List (String × Nat × Nat))
    (schedules : List (List Section)) (label : String) :
    (label ∈ slotsUsed table schedules ↔
      ∃ lo hi, (label, lo, hi) ∈ table ∧
        ∃ sched ∈ schedules, ∃ m ∈ meetingsOf sched,
          m.start < hi ∧ lo < m.stop) ∧
    (slotsUsed table schedules = [] →
      handleScheduleTimeSlots (slotsUsed table schedules) = DEFAULT_SLOTS) := by
  constructor
  · simp only [slotsUsed, List.mem_map, List.mem_filter, List.any_eq_true,
      Bool.and_eq_true, decide_eq_true_eq]
    constructor
    · rintro ⟨e, ⟨het, sched, hsched, m, hm, h1, h2⟩, heq⟩
      subst heq
      exact ⟨e.2.1, e.2.2, het, sched, hsched, m, hm, h1, h2⟩
    · rintro ⟨lo, hi, hmem, sched, hsched, m, hm, h1, h2⟩
      exact ⟨(label, lo, hi), ⟨hmem, sched, hsched, m, hm, h1, h2⟩, rfl⟩
  · intro h
    rw [h]
    rfl

/-- Witness for Claim C7 at the canonical slot table and an empty schedule
list, where the fallback to the default grid fires. -/
theorem time_slot_metadata_witness :
    (("08:40-09:30") ∈ slotsUsed canonicalSlotTable [] ↔
      ∃ lo hi, (("08:40-09:30"), lo, hi) ∈ canonicalSlotTable ∧
        ∃ sched ∈ ([] : List (List Section)), ∃ m ∈ meetingsOf sched,
          m.start < hi ∧ lo < m.stop) ∧
    (slotsUsed canonicalSlotTable [] = [] →
      handleScheduleTimeSlots (slotsUsed canonicalSlotTable []) =
        DEFAULT_SLOTS) :=
  time_slot_metadata canonicalSlotTable [] ("08:40-09:30")

/-! ## Frame property of blocked-cell toggling -/

theorem sep_append_inj : ∀ (a c b d : List Char), '|' ∉ a → '|' ∉ c →
    a ++ '|' :: b = c ++ '|' :: d → a = c ∧ b = d := by
  intro a
  induction a with
  | nil =>
    intro c b d _ hc h
    cases c with
    | nil =>
      simp only [List.nil_append] at h
      exact ⟨rfl, (List.cons.inj h).2⟩
    | cons x c' =>
      rw [List.nil_append, List.cons_append] at h
      have hx := (List.cons.inj h).1
      exfalso
      apply hc
      rw [hx]
      exact List.mem_cons_self _ _
  | cons x a' ih =>
    intro c b d ha hc h
    cases c with
    | nil =>
      rw [List.nil_append, List.cons_append] at h
      have hx := (List.cons.inj h).1
      exfalso
      apply ha
      rw [← hx]
      exact List.mem_cons_self _ _
    | cons y c' =>
      rw [List.cons_append, List.cons_append] at h
      obtain ⟨hxy, ht⟩ := List.cons.inj h
      have ha' : '|' ∉ a' := fun hm => ha (List.mem_cons_of_mem _ hm)
      have hc' : '|' ∉ c' := fun hm => hc (List.mem_cons_of_mem _ hm)
      obtain ⟨h1, h2⟩ := ih c' b d ha' hc' ht
      exact ⟨by rw [hxy, h1], h2⟩

theorem makeKey_inj (a b c d : String) (ha : NoSep a) (hc : NoSep c)
    (h : makeKey a b = makeKey c d) : a = c ∧ b = d := by
  have hd : a.data ++ '|' :: b.data = c.data ++ '|' :: d.data := by
    have h2 := congrArg String.data h
    simpa [makeKey, List.append_assoc] using h2
  obtain ⟨h1, h2⟩ := sep_append_inj a.data c.data b.data d.data ha hc hd
  exact ⟨by cases a; cases c; exact congrArg String.mk h1,
    by cases b; cases d; exact congrArg String.mk h2⟩

theorem isBlocked_eq_true_iff (bh : List BlockedCell) (day slot : String) :
    isBlocked bh day slot = true ↔
      ∃ b ∈ bh, makeKey b.day b.slot = makeKey day slot := by
  simp [isBlocked]

/-- Claim C8: toggling one timetable cell changes only that cell.  Starting
from a duplicate-free blocked list, clicking (day, slot) inverts that
cell's blocked status, leaves every other cell's status unchanged, and
keeps the list duplicate-free.  Day strings are assumed free of the key
separator, as weekday names are. -/
theorem cell_click_frame (bh : List BlockedCell) (day slot : String)
    (hday : NoSep day) (hnodup : bh.Nodup)
    (d s : String) (hd : NoSep d)
    (hne : (d, s) ≠ (day, slot)) :
    isBlocked (handleCellClick bh day slot) day slot =
      !(isBlocked bh day slot) ∧
    isBlocked (handleCellClick bh day slot) d s = isBlocked bh d s ∧
    (handleCellClick bh day slot).Nodup := by
  have hkey_ne : makeKey d s ≠ makeKey day slot := by
    intro hk
    obtain ⟨h1, h2⟩ := makeKey_inj d s day slot hd hday hk
    exact hne (by rw [h1, h2])
  cases hb : isBlocked bh day slot with
  | true =>
    have hcc : handleCellClick bh day slot =
        bh.filter fun b => !(makeKey b.day b.slot == makeKey day slot) := by
      simp [handleCellClick, hb]
    rw [hcc, Bool.not_true]
    refine ⟨?_, ?_, List.Nodup.filter _ hnodup⟩
    · refine (List.any_eq_false).mpr fun b hbf => ?_
      have h1 := List.of_mem_filter hbf
      intro h2
      rw [h2] at h1
      simp at h1
    · rw [Bool.eq_iff_iff, isBlocked_eq_true_iff, isBlocked_eq_true_iff]
      constructor
      · rintro ⟨b, hbf, hk⟩
        exact ⟨b, List.mem_of_mem_filter hbf, hk⟩
      · rintro ⟨b, hbm, hk⟩
        refine ⟨b, List.mem_filter.mpr ⟨hbm, ?_⟩, hk⟩
        have hne2 : makeKey b.day b.slot ≠ makeKey day slot := by
          rw [hk]
          exact hkey_ne
        simp [hne2]
  | false =>
    have hcc : handleCellClick bh day slot = bh ++ [⟨day, slot⟩] := by
      simp [handleCellClick, hb]
    rw [hcc, Bool.not_false]
    have hnotmem : (⟨day, slot⟩ : BlockedCell) ∉ bh := by
      intro hm
      have hbt : isBlocked bh day slot = true :=
        (isBlocked_eq_true_iff bh day slot).mpr ⟨⟨day, slot⟩, hm, rfl⟩
      rw [hb] at hbt
      cases hbt
    refine ⟨?_, ?_, ?_⟩
    · exact (isBlocked_eq_true_iff _ day slot).mpr
        ⟨⟨day, slot⟩, List.mem_append_right _ (List.mem_singleton_self _), rfl⟩
    · rw [Bool.eq_iff_iff, isBlocked_eq_true_iff, isBlocked_eq_true_iff]
      constructor
      · rintro ⟨b, hbm, hk⟩
        rcases List.mem_append.mp hbm with hbm | hbm
        · exact ⟨b, hbm, hk⟩
        · exfalso
          rw [List.mem_singleton.mp hbm] at hk
          exact hkey_ne hk.symm
      · rintro ⟨b, hbm, hk⟩
        exact ⟨b, List.mem_append_left _ hbm, hk⟩
    · rw [List.nodup_append]
      refine ⟨hnodup, List.nodup_singleton _, fun a ham ham' => ?_⟩
      rw [List.mem_singleton.mp ham'] at ham
      exact hnotmem ham

/-- Witness for Claim C8: toggling the Tuesday cell leaves the blocked
Monday cell untouched. -/
theorem cell_click_frame_witness :
    isBlocked (handleCellClick [⟨("Monday"), ("08:40-09:30")⟩] ("Tuesday")
        ("09:40-10:30")) ("Tuesday") ("09:40-10:30") =
      !(isBlocked [⟨("Monday"), ("08:40-09:30")⟩] ("Tuesday")
        ("09:40-10:30")) ∧
    isBlocked (handleCellClick [⟨("Monday"), ("08:40-09:30")⟩] ("Tuesday")
        ("09:40-10:30")) ("Monday") ("08:40-09:30") =
      isBlocked [⟨("Monday"), ("08:40-09:30")⟩] ("Monday") ("08:40-09:30") ∧
    (handleCellClick [⟨("Monday"), ("08:40-09:30")⟩] ("Tuesday")
        ("09:40-10:30")).Nodup :=
  cell_click_frame [⟨("Monday"), ("08:40-09:30")⟩] ("Tuesday")
    ("09:40-10:30") (by decide) (by decide)
    ("Monday") ("08:40-09:30") (by decide) (by decide)

end YUScheduler
